import Mathlib

/-!
Shallow embedding of the go-memcached server (sharded LRU cache engine and
memcached text-protocol connection handler) and verification of its
specification claims.

The embedding follows the latest source variants:
* `pkg/cache/lru.go` — bucketed LRU with byte accounting (`Bucket`, `LRU`),
* the multi-key connection handler (`parseRequest`, `connReader`,
  `handleConnection` with stats counters).

Go `uint64`/`uint32` arithmetic is modelled on `Nat` with explicit `% 2^w`.
Go byte strings are modelled as Lean `String`s with `glen` (UTF-8 byte
length) standing for Go's `len`.  A bucket's hash map `elements` and its
doubly linked `evictList` always hold the same entries (the spec's bijection
invariant), so the embedding represents both by a single list of entries
ordered front (most recently used) to back (least recently used), with the
map lookup being search by key; key uniqueness is the `nodupKeys` invariant.
-/

namespace Memcached

/-- Go `len` on a string counts bytes. -/
def glen (s : String) : Nat := s.utf8ByteSize

/-- 2^32, the modulus of Go `uint32` arithmetic. -/
def U32 : Nat := 2 ^ 32

/-- 2^64, the modulus of Go `uint64` arithmetic. -/
def U64 : Nat := 2 ^ 64

/-- Go `uint64` addition. -/
def u64add (a b : Nat) : Nat := (a + b) % U64

/-- Go `uint64` subtraction (wraps around on underflow). -/
def u64sub (a b : Nat) : Nat := (a % U64 + (U64 - b % U64)) % U64

/-- `entry` from `pkg/cache/lru.go`: one stored cache entry. -/
structure entry where
  key : String
  value : String
  flags : Nat
  cas : Nat
  deriving Repr, DecidableEq

/-- `entry.size()`: approximate byte count of an entry,
`uint64(len(e.key) + len(e.value))`. -/
def entry.size (e : entry) : Nat := glen e.key + glen e.value

/-- `Bucket` from `pkg/cache/lru.go`.  `entries` is the evict list from
front to back; the `elements` map is search by key in this list. -/
structure Bucket where
  capacity : Nat
  size : Nat
  entries : List entry
  deriving Repr, DecidableEq

/-- Lookup in the bucket's `elements` map (`bucket.elements[key]`). -/
def Bucket.findElem (b : Bucket) (key : String) : Option entry :=
  b.entries.find? (fun e => e.key == key)

/-- Key uniqueness: each key appears at most once in the bucket
(consequence of `elements` being a map and the code inserting into the
evict list only together with the map). -/
def Bucket.nodupKeys (b : Bucket) : Prop :=
  b.entries.Pairwise (fun e₁ e₂ => e₁.key ≠ e₂.key)

/-- `Bucket.addElement`: push a fresh entry at the front of the evict list,
record it in the map, and add its size to the byte counter. -/
def Bucket.addElement (b : Bucket) (key value : String) (flags cas : Nat) :
    Bucket :=
  let e : entry := ⟨key, value, flags, cas⟩
  { b with entries := e :: b.entries, size := u64add b.size e.size }

/-- `Bucket.updateElement`: overwrite value/flags/cas of the entry in place,
move it to the front of the evict list, and adjust the byte counter by
`new size - old size` (Go `uint64` arithmetic). -/
def Bucket.updateElement (b : Bucket) (old : entry) (value : String)
    (flags cas : Nat) : Bucket :=
  let e : entry := ⟨old.key, value, flags, cas⟩
  { b with
    entries := e :: b.entries.eraseP (fun x => x.key == old.key),
    size := u64add b.size (u64sub e.size old.size) }

/-- `Bucket.refreshElement`: move the entry to the front of the evict list. -/
def Bucket.refreshElement (b : Bucket) (e : entry) : Bucket :=
  { b with entries := e :: b.entries.eraseP (fun x => x.key == e.key) }

/-- `Bucket.deleteElement`: remove the entry from map and evict list and
subtract its size from the byte counter. -/
def Bucket.deleteElement (b : Bucket) (e : entry) : Bucket :=
  { b with
    entries := b.entries.eraseP (fun x => x.key == e.key),
    size := u64sub b.size e.size }

/-- One-step body of the `checkCapacity` loop, iterated on explicit fuel
(each iteration deletes one entry or exits, so `entries.length + 1` fuel is
enough; `evictLoop` with that fuel is exactly the `while` loop). -/
def Bucket.evictLoop : Bucket → Nat → Bucket
  | b, 0 => b
  | b, fuel + 1 =>
    if b.size > b.capacity then
      match b.entries.getLast? with
      | none => b
      | some e => Bucket.evictLoop (b.deleteElement e) fuel
    else b

/-- `Bucket.checkCapacity`: while more than `capacity` bytes are stored,
evict the entry at the back of the evict list; stop (with a log line) if the
evict list is empty. -/
def Bucket.checkCapacity (b : Bucket) : Bucket :=
  b.evictLoop (b.entries.length + 1)

/-- The per-bucket body of `LRU.Add` (run under the bucket's lock): update
the existing entry in place or insert a fresh one, then evict down to
capacity. -/
def Bucket.add (b : Bucket) (key value : String) (flags cas : Nat) :
    Bucket :=
  (match b.findElem key with
   | some e => b.updateElement e value flags cas
   | none => b.addElement key value flags cas).checkCapacity

/-- The per-bucket body of `LRU.Get`: on a hit return the entry's data and
move it to the recency front; a miss leaves the bucket untouched. -/
def Bucket.get (b : Bucket) (key : String) :
    Option (String × Nat × Nat) × Bucket :=
  match b.findElem key with
  | none => (none, b)
  | some e => (some (e.value, e.flags, e.cas), b.refreshElement e)

/-- The per-bucket body of `LRU.Delete`: remove the entry if present
(`false` = `ErrCacheMiss`). -/
def Bucket.delete (b : Bucket) (key : String) : Bool × Bucket :=
  match b.findElem key with
  | none => (false, b)
  | some e => (true, b.deleteElement e)

/-- `LRU` from `pkg/cache/lru.go`: buckets behind an FNV-1a hash, plus the
process-wide CAS token counter. -/
structure LRU where
  capacity : Nat
  numBuckets : Nat
  buckets : List Bucket
  casToken : Nat
  deriving Repr, DecidableEq

/-- UTF-8 encoding of one code point, as the byte list Go would hold. -/
def utf8EncodeCp (n : Nat) : List Nat :=
  if n < 0x80 then [n]
  else if n < 0x800 then
    [0xC0 ||| (n >>> 6), 0x80 ||| (n &&& 0x3F)]
  else if n < 0x10000 then
    [0xE0 ||| (n >>> 12), 0x80 ||| ((n >>> 6) &&& 0x3F), 0x80 ||| (n &&& 0x3F)]
  else
    [0xF0 ||| (n >>> 18), 0x80 ||| ((n >>> 12) &&& 0x3F),
      0x80 ||| ((n >>> 6) &&& 0x3F), 0x80 ||| (n &&& 0x3F)]

/-- The bytes of a Go string (UTF-8). -/
def utf8Bytes (s : String) : List Nat :=
  (s.data.map (fun c => utf8EncodeCp c.toNat)).flatten

/-- FNV-1a 32-bit hash of the key's bytes (`hash/fnv`, `New32a`). -/
def fnv32a (s : String) : Nat :=
  (utf8Bytes s).foldl (fun h c => ((h ^^^ c) * 16777619) % U32) 2166136261

/-- `NewLRU`: `numBuckets` empty buckets, each with capacity
`capacity / numBuckets`. -/
def NewLRU (capacity numBuckets : Nat) : LRU :=
  { capacity := capacity
    numBuckets := numBuckets
    buckets := List.replicate numBuckets
      { capacity := capacity / numBuckets, size := 0, entries := [] }
    casToken := 0 }

/-- Index of the bucket serving `key`: `lru.hash(key) % lru.numBuckets`. -/
def LRU.bucketIdx (lru : LRU) (key : String) : Nat :=
  fnv32a key % lru.numBuckets

/-- The bucket serving `key`. -/
def LRU.bucketFor (lru : LRU) (key : String) : Bucket :=
  lru.buckets.getD (lru.bucketIdx key) ⟨0, 0, []⟩

/-- Replace the bucket serving `key`. -/
def LRU.setBucketFor (lru : LRU) (key : String) (b : Bucket) : LRU :=
  { lru with buckets := lru.buckets.set (lru.bucketIdx key) b }

/-- `lru.getNewCasToken()`: atomically increment and return the
process-wide CAS token counter (`uint64`). -/
def LRU.getNewCasToken (lru : LRU) : Nat × LRU :=
  let c := u64add lru.casToken 1
  (c, { lru with casToken := c })

/-- `LRU.Add`: issue a fresh CAS token, then under the bucket lock update
the existing entry in place or insert a fresh one, and evict down to
capacity. -/
def LRU.Add (lru : LRU) (key value : String) (flags : Nat) : LRU :=
  let (newCas, lru') := lru.getNewCasToken
  lru'.setBucketFor key ((lru'.bucketFor key).add key value flags newCas)

/-- `LRU.Get`: return `(value, flags, cas)` of the entry for `key`, moving
it to the recency front, or fail with `ErrCacheMiss` (`none`).  A miss
returns before any mutation. -/
def LRU.Get (lru : LRU) (key : String) :
    Option (String × Nat × Nat) × LRU :=
  match (lru.bucketFor key).get key with
  | (none, _) => (none, lru)
  | (some res, b') => (some res, lru.setBucketFor key b')

/-- `LRU.Delete`: remove the entry for `key`, or fail with `ErrCacheMiss`
(`false` flags the error).  A miss returns before any mutation. -/
def LRU.Delete (lru : LRU) (key : String) : Bool × LRU :=
  match (lru.bucketFor key).delete key with
  | (false, _) => (false, lru)
  | (true, b') => (true, lru.setBucketFor key b')

/-! ## Protocol parser and connection handler (latest multi-key variant) -/

def cmdCas : String := "cas"
def cmdDelete : String := "delete"
def cmdGet : String := "get"
def cmdGets : String := "gets"
def cmdQuit : String := "quit"
def cmdSet : String := "set"
def cmdHire : String := "hireeric?"

def endOfLine : String := "\r\n"
def replyDeleted : String := "DELETED\r\n"
def replyEnd : String := "END\r\n"
def replyError : String := "ERROR\r\n"
def replyExists : String := "EXISTS\r\n"
def replyNotFound : String := "NOT_FOUND\r\n"
def replyNotStored : String := "NOT_STORED\r\n"
def replyStored : String := "STORED\r\n"
def replyYes : String := "totes\r\n"

def maxKeyLength : Nat := 250

def errInsufficientArgs : String := "Insufficient args"

/-- `Request` struct: one parsed client request.  Defaults are Go zero
values.  `err` holds protocol-level errors as their message (`io.EOF` and
net timeouts are connection-level and terminate the handler before any
reply, so they are not modelled here). -/
structure Request where
  cmd : String := ""
  keys : List String := []
  flags : Nat := 0
  expTime : Int := 0
  n : Int := 0
  cas : Nat := 0
  dataBlock : String := ""
  err : Option String := none
  deriving Repr, DecidableEq

/-- Split a character list at every space, keeping empty fields —
`strings.Split(line, " ")` at the character level. -/
def splitCh : List Char → List (List Char)
  | [] => [[]]
  | c :: rest =>
    match splitCh rest with
    | [] => [[c]]
    | f :: fs => if c = ' ' then [] :: f :: fs else (c :: f) :: fs

/-- `strings.Split(line, " ")`. -/
def gsplit (line : String) : List String :=
  (splitCh line.data).map String.mk

/-- The whitespace-separated tokens `fmt.Sscanf` consumes from a line. -/
def sfields (line : String) : List String :=
  (gsplit line).filter (fun t => t ≠ "")

/-- Value of a nonempty all-digit character list, if within `bound`. -/
def scanDigits (bound : Nat) (cs : List Char) : Option Nat :=
  if cs ≠ [] ∧ cs.all (fun c => c.isDigit) then
    let v := cs.foldl (fun a c => a * 10 + (c.toNat - 48)) 0
    if v < bound then some v else none
  else none

/-- `fmt.Sscanf` `%d` into an unsigned integer below `bound`: decimal
digits only, must fit. -/
def scanUNat (bound : Nat) (t : String) : Option Nat :=
  scanDigits bound t.data

/-- `fmt.Sscanf` `%d` into a signed 32-bit integer. -/
def scanInt (t : String) : Option Int :=
  match t.data with
  | '-' :: rest => (scanDigits (2 ^ 31 + 1) rest).map (fun v => -(v : Int))
  | _ => (scanUNat (2 ^ 31) t).map (fun v => (v : Int))

/-- `fmt.Sscanf(line, "%s%s%d%d%d")` for the `set` line: command, key,
flags (`uint32`), exptime (`int32`), byte count (`int`). -/
def scanSet (line : String) :
    Option (String × String × Nat × Int × Int) :=
  match sfields line with
  | c :: k :: f :: e :: n :: _ =>
      match scanUNat U32 f, scanInt e, scanInt n with
      | some fv, some ev, some nv => some (c, k, fv, ev, nv)
      | _, _, _ => none
  | _ => none

/-- `fmt.Sscanf(line, "%s%s%d%d%d%d")` for the `cas` line: additionally the
request's CAS token (`uint64`). -/
def scanCas (line : String) :
    Option (String × String × Nat × Int × Int × Nat) :=
  match sfields line with
  | c :: k :: f :: e :: n :: t :: _ =>
      match scanUNat U32 f, scanInt e, scanInt n, scanUNat U64 t with
      | some fv, some ev, some nv, some tv => some (c, k, fv, ev, nv, tv)
      | _, _, _, _ => none
  | _ => none

/-- `parseRequest` (multi-key variant): split the line on single spaces,
take `args[0]` as the command, and fill the `Request` per command.  Returns
the request and the error that the caller attaches to it. -/
def parseRequest (line : String) : Request × Option String :=
  if line = "" then ({}, some "no command provided")
  else
    let args := gsplit line
    let cmd := args.headD ""
    if cmd = cmdCas then
      match scanCas line with
      | some (c, k, f, e, n, t) =>
          ({ cmd := c, keys := [k], flags := f, expTime := e, n := n,
             cas := t }, none)
      | none => ({ cmd := cmd, keys := [""] }, some "input does not match format")
    else if cmd = cmdDelete then
      if args.length < 2 then ({ cmd := cmd }, some errInsufficientArgs)
      else ({ cmd := cmd, keys := [args.getD 1 ""] }, none)
    else if cmd = cmdGet ∨ cmd = cmdGets then
      ({ cmd := cmd, keys := args.drop 1 }, none)
    else if cmd = cmdSet then
      match scanSet line with
      | some (c, k, f, e, n) =>
          ({ cmd := c, keys := [k], flags := f, expTime := e, n := n }, none)
      | none => ({ cmd := cmd, keys := [""] }, some "input does not match format")
    else
      ({ cmd := cmd }, none)

/-- One iteration of `connReader` for a complete request: parse the command
line; on a parse error attach it to the request; for `set`/`cas` read the
data line, rejecting one longer than `n` with a fresh error request,
otherwise storing it as the data block. -/
def readRequest (line dataLine : String) : Request :=
  let (r, err) := parseRequest line
  match err with
  | some e => { r with err := some e }
  | none =>
    if r.cmd = cmdSet ∨ r.cmd = cmdCas then
      if (glen dataLine : Int) > r.n then
        { err := some "data block provided is too long" }
      else { r with dataBlock := dataLine }
    else r

/-- First half of the handler's `cas` arm: `server.Cache.Get` on the key.
This runs under the bucket's lock, which is released when `Get` returns —
it is a critical section separate from the later `Add`. -/
def casReadPhase (lru : LRU) (r : Request) :
    Option (String × Nat × Nat) × LRU :=
  lru.Get (r.keys.headD "")

/-- Second half of the handler's `cas` arm: branch on the read result,
compare the stored token read earlier with the request's, and
`server.Cache.Add` on a match (a second, separate critical section).  The
code's `err != nil → NOT_STORED` arm is unreachable (`Get` only fails with
`ErrCacheMiss`) and so has no model. -/
def casWritePhase (lru : LRU) (r : Request)
    (readResult : Option (String × Nat × Nat)) : LRU × String :=
  match readResult with
  | none => (lru, replyNotFound)
  | some (_, _, entryCas) =>
      if r.cas ≠ entryCas then (lru, replyExists)
      else (lru.Add (r.keys.headD "") r.dataBlock r.flags, replyStored)

/-- The `cas` arm of the handler's dispatch switch: read phase followed by
write phase.  In the single-threaded case they run back to back; another
writer on the same key may be interleaved between them (claim C1). -/
def casDispatch (lru : LRU) (r : Request) : LRU × String :=
  let (res, lru') := casReadPhase lru r
  casWritePhase lru' r res

/-- The `get` arm: for each key in order, a hit writes its `VALUE` line and
payload (and touches recency); a miss writes nothing. -/
def getDispatch (lru : LRU) (keys : List String) : LRU × String :=
  match keys with
  | [] => (lru, "")
  | k :: rest =>
    match lru.Get k with
    | (none, lru') => getDispatch lru' rest
    | (some (v, f, _), lru') =>
        let line := "VALUE " ++ k ++ " " ++ toString f ++ " "
          ++ toString (glen v) ++ endOfLine ++ v ++ endOfLine
        let (lru'', out) := getDispatch lru' rest
        (lru'', line ++ out)

/-- The `gets` arm: like `get` but the `VALUE` line also carries the CAS
token. -/
def getsDispatch (lru : LRU) (keys : List String) : LRU × String :=
  match keys with
  | [] => (lru, "")
  | k :: rest =>
    match lru.Get k with
    | (none, lru') => getsDispatch lru' rest
    | (some (v, f, c), lru') =>
        let line := "VALUE " ++ k ++ " " ++ toString f ++ " "
          ++ toString (glen v) ++ " " ++ toString c ++ endOfLine ++ v
          ++ endOfLine
        let (lru'', out) := getsDispatch lru' rest
        (lru'', line ++ out)

/-- The dispatch `switch` of `handleConnection`. -/
def dispatch (lru : LRU) (r : Request) : LRU × String :=
  if r.cmd = cmdCas then casDispatch lru r
  else if r.cmd = cmdDelete then
    match lru.Delete (r.keys.headD "") with
    | (false, lru') => (lru', replyNotFound)
    | (true, lru') => (lru', replyDeleted)
  else if r.cmd = cmdGet then
    let (lru', out) := getDispatch lru r.keys
    (lru', out ++ replyEnd)
  else if r.cmd = cmdGets then
    let (lru', out) := getsDispatch lru r.keys
    (lru', out ++ replyEnd)
  else if r.cmd = cmdSet then
    (lru.Add (r.keys.headD "") r.dataBlock r.flags, replyStored)
  else if r.cmd = cmdHire then (lru, replyYes)
  else (lru, replyError)

/-- One iteration of the handler's select loop for a delivered request
(`io.EOF`, timeouts and the shutdown signal terminate the loop instead and
are connection-level): parse errors are reported as `CLIENT_ERROR` and the
command is not dispatched; `quit` ends the connection silently; otherwise
the key-length loop writes one `CLIENT_ERROR` per over-long key (its
`continue` only advances that inner loop) and then the command is
dispatched. -/
def handleRequest (lru : LRU) (r : Request) : LRU × String :=
  match r.err with
  | some m => (lru, "CLIENT_ERROR " ++ m ++ endOfLine)
  | none =>
    if r.cmd = cmdQuit then (lru, "")
    else
      let keyLenOut := String.join (r.keys.map (fun k =>
        if glen k > maxKeyLength then
          "CLIENT_ERROR key is too long (max is 250 bytes)" ++ endOfLine
        else ""))
      let (lru', out) := dispatch lru r
      (lru', keyLenOut ++ out)

/-- A full `set` interaction as the reader and handler perform it. -/
def doSet (lru : LRU) (line dataLine : String) : LRU × String :=
  handleRequest lru (readRequest line dataLine)

/-! ## Shard invariants -/

/-- Total size of a bucket's stored entries:
`sum(len(key)+len(value))`. -/
def Bucket.sumSize (b : Bucket) : Nat := (b.entries.map entry.size).sum

/-- The size-accounting invariant: the `size` counter equals the sum of the
stored entries' sizes. -/
def Bucket.sizeInv (b : Bucket) : Prop := b.size = b.sumSize

instance (b : Bucket) : Decidable b.sizeInv :=
  decidable_of_iff (b.size = b.sumSize) Iff.rfl

instance (b : Bucket) : Decidable b.nodupKeys :=
  List.instDecidablePairwise b.entries

/-- The entry stored under `key`, as seen through the routed bucket's map. -/
def LRU.lookup (lru : LRU) (key : String) : Option entry :=
  (lru.bucketFor key).findElem key

/-- Structural well-formedness of the engine: the bucket list has the
announced length, there is at least one bucket, and every bucket's keys are
unique. -/
def LRU.wfKeys (lru : LRU) : Prop :=
  lru.buckets.length = lru.numBuckets ∧ 0 < lru.numBuckets ∧
    ∀ b ∈ lru.buckets, b.nodupKeys

instance (lru : LRU) : Decidable lru.wfKeys := by
  unfold LRU.wfKeys
  exact instDecidableAnd

/-- The `VALUE` block `get` owes a key: the hit's
`VALUE <key> <flags> <len>\r\n<value>\r\n`, or nothing on a miss. -/
def specValueLine (res : Option entry) (key : String) : String :=
  match res with
  | none => ""
  | some e => "VALUE " ++ key ++ " " ++ toString e.flags ++ " "
      ++ toString (glen e.value) ++ endOfLine ++ e.value ++ endOfLine

/-! ## Ghost-stamped shard (for the LRU-order claim)

`TBucket` is the same shard as `Bucket` with one ghost field added to each
entry: `stamp`, the logical time of its last touch.  Every operation is the
`Bucket` operation verbatim plus the stamping of the touched entry with the
current ghost clock; no control flow depends on a stamp. -/

/-- A stored entry together with its ghost last-touch time. -/
structure TEntry where
  ent : entry
  stamp : Nat
  deriving Repr, DecidableEq

/-- Key of a stamped entry. -/
def TEntry.key (te : TEntry) : String := te.ent.key

/-- Size of a stamped entry (the stamp is ghost and weightless). -/
def TEntry.size (te : TEntry) : Nat := te.ent.size

/-- The shard of `pkg/cache/lru.go` with ghost stamps. -/
structure TBucket where
  capacity : Nat
  size : Nat
  entries : List TEntry
  deriving Repr, DecidableEq

/-- Map lookup (`bucket.elements[key]`). -/
def TBucket.findElem (b : TBucket) (key : String) : Option TEntry :=
  b.entries.find? (fun te => te.key == key)

/-- `addElement`, stamping the fresh entry with the clock. -/
def TBucket.addElement (b : TBucket) (key value : String) (flags cas : Nat)
    (clock : Nat) : TBucket :=
  let te : TEntry := ⟨⟨key, value, flags, cas⟩, clock⟩
  { b with entries := te :: b.entries, size := u64add b.size te.size }

/-- `updateElement`, restamping the touched entry with the clock. -/
def TBucket.updateElement (b : TBucket) (old : TEntry) (value : String)
    (flags cas : Nat) (clock : Nat) : TBucket :=
  let te : TEntry := ⟨⟨old.key, value, flags, cas⟩, clock⟩
  { b with
    entries := te :: b.entries.eraseP (fun x => x.key == old.key),
    size := u64add b.size (u64sub te.size old.size) }

/-- `refreshElement`, restamping the touched entry with the clock. -/
def TBucket.refreshElement (b : TBucket) (te : TEntry) (clock : Nat) :
    TBucket :=
  { b with
    entries := { te with stamp := clock }
      :: b.entries.eraseP (fun x => x.key == te.key) }

/-- `deleteElement` (stamps untouched). -/
def TBucket.deleteElement (b : TBucket) (te : TEntry) : TBucket :=
  { b with
    entries := b.entries.eraseP (fun x => x.key == te.key),
    size := u64sub b.size te.size }

/-- The `checkCapacity` loop body on fuel, as for `Bucket`. -/
def TBucket.evictLoop : TBucket → Nat → TBucket
  | b, 0 => b
  | b, fuel + 1 =>
    if b.size > b.capacity then
      match b.entries.getLast? with
      | none => b
      | some te => TBucket.evictLoop (b.deleteElement te) fuel
    else b

/-- `checkCapacity`. -/
def TBucket.checkCapacity (b : TBucket) : TBucket :=
  b.evictLoop (b.entries.length + 1)

/-- The in-place insert-or-update half of `Add` (before `checkCapacity`):
the touched key ends at the recency front carrying the clock as its
last-touch time. -/
def TBucket.addRaw (b : TBucket) (key value : String) (flags cas : Nat)
    (clock : Nat) : TBucket :=
  match b.findElem key with
  | some te => b.updateElement te value flags cas clock
  | none => b.addElement key value flags cas clock

/-- `Bucket.add` with ghost stamps: insert-or-update, then evict down to
capacity. -/
def TBucket.add (b : TBucket) (key value : String) (flags cas : Nat)
    (clock : Nat) : TBucket :=
  (b.addRaw key value flags cas clock).checkCapacity

/-- `Bucket.get` with ghost stamps: a hit is a touch. -/
def TBucket.get (b : TBucket) (key : String) (clock : Nat) :
    Option (String × Nat × Nat) × TBucket :=
  match b.findElem key with
  | none => (none, b)
  | some te =>
      (some (te.ent.value, te.ent.flags, te.ent.cas),
        b.refreshElement te clock)

/-- Key uniqueness for the stamped shard. -/
def TBucket.nodupKeys (b : TBucket) : Prop :=
  b.entries.Pairwise (fun a b => a.key ≠ b.key)

/-- The recency sequence is strictly ordered by last-touch time, newest at
the front. -/
def stampsDesc (l : List TEntry) : Prop :=
  l.Pairwise (fun a b => b.stamp < a.stamp)

/-- All stamps lie below the ghost clock. -/
def TBucket.freshClock (b : TBucket) (clock : Nat) : Prop :=
  ∀ te ∈ b.entries, te.stamp < clock

/-- Total size of the stamped shard's entries. -/
def TBucket.sumSize (b : TBucket) : Nat := (b.entries.map TEntry.size).sum

/-- Size accounting for the stamped shard. -/
def TBucket.sizeInv (b : TBucket) : Prop := b.size = b.sumSize

/-- Modelled from the spec: "the key with the oldest last-touch time among
that shard's residents" — the resident with the minimal stamp; on equal
stamps the one inserted earliest (further toward the back) wins. -/
def oldestTouch : List TEntry → Option TEntry
  | [] => none
  | te :: rest =>
    match oldestTouch rest with
    | none => some te
    | some o => if o.stamp ≤ te.stamp then some o else some te

/-- Modelled from the spec: evict the oldest-touched resident — delete it
from the mapping (removal by its key) and drop its size. -/
def TBucket.specRemove (b : TBucket) (te : TEntry) : TBucket :=
  { b with
    entries := b.entries.eraseP (fun x => x.key == te.key),
    size := b.size - te.size }

/-- Modelled from the spec: while over capacity, evict the resident with
the oldest last-touch time (stopping if none are left). -/
def TBucket.specEvictLoop : TBucket → Nat → TBucket
  | b, 0 => b
  | b, fuel + 1 =>
    if b.size > b.capacity then
      match oldestTouch b.entries with
      | none => b
      | some te => TBucket.specEvictLoop (b.specRemove te) fuel
    else b

/-- Modelled from the spec: the whole eviction pass. -/
def TBucket.specEvict (b : TBucket) : TBucket :=
  b.specEvictLoop (b.entries.length + 1)

/-! ## Generic lemmas about keyed lists -/

section KeyedList

variable {α : Type} (keyf : α → String)

theorem keyed_inj {l : List α}
    (hnd : l.Pairwise (fun u v => keyf u ≠ keyf v)) :
    ∀ {a b : α}, a ∈ l → b ∈ l → keyf a = keyf b → a = b := by
  induction hnd with
  | nil => intro a b ha _ _; exact absurd ha (List.not_mem_nil a)
  | cons hx _ ih =>
      intro a b ha hb hk
      rcases List.mem_cons.mp ha with hax | ha
      · rcases List.mem_cons.mp hb with hbx | hb
        · exact hax.trans hbx.symm
        · exact absurd (hax ▸ hk) (hx _ hb)
      · rcases List.mem_cons.mp hb with hbx | hb
        · exact absurd (hbx ▸ hk.symm) (hx _ ha)
        · exact ih ha hb hk

theorem keyed_eraseP_decomp {l : List α}
    (hnd : l.Pairwise (fun a b => keyf a ≠ keyf b)) {e : α} (he : e ∈ l) :
    ∃ l₁ l₂, l = l₁ ++ e :: l₂
      ∧ l.eraseP (fun x => keyf x == keyf e) = l₁ ++ l₂
      ∧ (∀ x ∈ l₁, keyf x ≠ keyf e) ∧ (∀ x ∈ l₂, keyf x ≠ keyf e) := by
  obtain ⟨a, l₁, l₂, hnp, hp, hl, her⟩ :=
    List.exists_of_eraseP (p := fun x => keyf x == keyf e) he (by simp)
  have hmem : a ∈ l := by rw [hl]; simp
  have hae : a = e := keyed_inj keyf hnd hmem he (by simpa using hp)
  subst hae
  refine ⟨l₁, l₂, hl, her, fun x hx => by simpa using hnp x hx, ?_⟩
  have hpl : (l₁ ++ a :: l₂).Pairwise (fun a b => keyf a ≠ keyf b) :=
    hl ▸ hnd
  have h2 := List.pairwise_cons.mp (List.pairwise_append.mp hpl).2.1
  intro x hx hkk
  exact (h2.1 x hx) hkk.symm

theorem keyed_find?_eraseP_ne : ∀ (l : List α) {k kk : String}, k ≠ kk →
    (l.eraseP (fun x => keyf x == kk)).find? (fun x => keyf x == k)
      = l.find? (fun x => keyf x == k) := by
  intro l
  induction l with
  | nil => intro k kk _; rfl
  | cons x t ih =>
      intro k kk h
      by_cases hx : keyf x = kk
      · have h1 : (fun x => keyf x == kk) x = true := by simpa using hx
        have h2 : (keyf x == k) = false := by
          simp only [beq_eq_false_iff_ne]
          intro hc; exact h (hc ▸ hx)
        simp [List.eraseP_cons, h1, List.find?, h2]
      · have h1 : (fun x => keyf x == kk) x = false := by simpa using hx
        by_cases hk : keyf x = k
        · have h2 : (keyf x == k) = true := by simpa using hk
          simp [List.eraseP_cons, h1, List.find?, h2]
        · have h2 : (keyf x == k) = false := by simpa using hk
          simp [List.eraseP_cons, h1, List.find?, h2, ih h]

theorem keyed_sum_eraseP (sizef : α → Nat) {l : List α}
    (hnd : l.Pairwise (fun a b => keyf a ≠ keyf b)) {e : α} (he : e ∈ l) :
    ((l.eraseP (fun x => keyf x == keyf e)).map sizef).sum + sizef e
      = (l.map sizef).sum := by
  obtain ⟨l₁, l₂, hl, her, _, _⟩ := keyed_eraseP_decomp keyf hnd he
  rw [her, hl]
  simp
  omega

theorem keyed_sizef_le (sizef : α → Nat) {l : List α} {e : α} (he : e ∈ l) :
    sizef e ≤ (l.map sizef).sum := by
  induction l with
  | nil => exact absurd he (List.not_mem_nil e)
  | cons x t ih =>
      rcases List.mem_cons.mp he with rfl | he
      · simp
      · have := ih he
        simp
        omega

theorem keyed_nodup_cons_eraseP {l : List α}
    (hnd : l.Pairwise (fun a b => keyf a ≠ keyf b)) {e : α} (he : e ∈ l)
    (a : α) (ha : keyf a = keyf e) :
    (a :: l.eraseP (fun x => keyf x == keyf e)).Pairwise
      (fun x y => keyf x ≠ keyf y) := by
  obtain ⟨l₁, l₂, hl, her, h1, h2⟩ := keyed_eraseP_decomp keyf hnd he
  rw [her]
  refine List.pairwise_cons.mpr ⟨?_, ?_⟩
  · intro y hy
    rw [ha]
    rcases List.mem_append.mp hy with hy | hy
    · exact fun hc => (h1 y hy) hc.symm
    · exact fun hc => (h2 y hy) hc.symm
  · have hsub : (l.eraseP (fun x => keyf x == keyf e)).Pairwise
        (fun x y => keyf x ≠ keyf y) :=
      List.Pairwise.sublist (List.eraseP_sublist l) hnd
    exact her ▸ hsub

end KeyedList

/-! ## Go `uint64` arithmetic facts -/

theorem U64_eq : U64 = 18446744073709551616 := by norm_num [U64]

theorem u64add_exact {a b : Nat} (h : a + b < U64) : u64add a b = a + b := by
  simp only [u64add]
  exact Nat.mod_eq_of_lt h

theorem u64sub_exact {a b : Nat} (hba : b ≤ a) (ha : a < U64) :
    u64sub a b = a - b := by
  simp only [u64sub, U64_eq] at *
  omega

theorem u64add_u64sub_exact {s os ns : Nat} (h1 : os ≤ s) (hs : s < U64)
    (h2 : s - os + ns < U64) (h3 : ns < U64) :
    u64add s (u64sub ns os) = s - os + ns := by
  simp only [u64add, u64sub, U64_eq] at *
  omega

theorem getLast?_mem {α : Type*} {l : List α} {e : α}
    (h : l.getLast? = some e) : e ∈ l := by
  obtain ⟨hne, he⟩ :=
    List.mem_getLast?_eq_getLast (x := e) (Option.mem_def.mpr h)
  exact he ▸ List.getLast_mem hne

/-! ## Bucket operation lemmas -/

theorem Bucket.findElem_some {b : Bucket} {key : String} {e : entry}
    (h : b.findElem key = some e) : e ∈ b.entries ∧ e.key = key := by
  refine ⟨List.mem_of_find?_eq_some h, ?_⟩
  have := List.find?_some h
  simpa using this

theorem Bucket.findElem_none {b : Bucket} {key : String}
    (h : b.findElem key = none) : ∀ e ∈ b.entries, e.key ≠ key := by
  intro e he
  have := List.find?_eq_none.mp h e he
  simpa using this

theorem Bucket.sumSize_addElement {b : Bucket} {k v : String} {f c : Nat} :
    (b.addElement k v f c).sumSize = (glen k + glen v) + b.sumSize := by
  simp [Bucket.addElement, Bucket.sumSize, entry.size]

theorem Bucket.sizeInv_addElement {b : Bucket} {k v : String} {f c : Nat}
    (hinv : b.sizeInv) (hb : b.sumSize + (glen k + glen v) < U64) :
    (b.addElement k v f c).sizeInv := by
  have hx : u64add b.size (glen k + glen v) = b.size + (glen k + glen v) :=
    u64add_exact (by rw [hinv]; omega)
  simp only [Bucket.sizeInv, Bucket.addElement, Bucket.sumSize] at *
  simp only [entry.size, List.map_cons, List.sum_cons]
  rw [hx, hinv]
  omega

theorem Bucket.sumSize_updateElement {b : Bucket} {e : entry}
    {v : String} {f c : Nat} (hnd : b.nodupKeys) (hmem : e ∈ b.entries) :
    (b.updateElement e v f c).sumSize + e.size
      = (glen e.key + glen v) + b.sumSize := by
  have hsum := keyed_sum_eraseP entry.key entry.size hnd hmem
  simp only [Bucket.updateElement, Bucket.sumSize, List.map_cons,
    List.sum_cons] at *
  simp only [entry.size] at *
  omega

theorem Bucket.sizeInv_updateElement {b : Bucket} {e : entry}
    {v : String} {f c : Nat} (hnd : b.nodupKeys) (hmem : e ∈ b.entries)
    (hinv : b.sizeInv) (hb : b.sumSize + (glen e.key + glen v) < U64) :
    (b.updateElement e v f c).sizeInv := by
  have hes : e.size ≤ b.sumSize := keyed_sizef_le entry.size hmem
  have hsum := keyed_sum_eraseP entry.key entry.size hnd hmem
  have hx : u64add b.size (u64sub (glen e.key + glen v) e.size)
      = b.size - e.size + (glen e.key + glen v) := by
    apply u64add_u64sub_exact
    · rw [hinv]; exact hes
    · rw [hinv]; omega
    · rw [hinv]; omega
    · omega
  simp only [Bucket.sizeInv, Bucket.updateElement, Bucket.sumSize,
    List.map_cons, List.sum_cons] at *
  simp only [entry.size] at *
  rw [hx, hinv]
  omega

theorem Bucket.sumSize_deleteElement {b : Bucket} {e : entry}
    (hnd : b.nodupKeys) (hmem : e ∈ b.entries) :
    (b.deleteElement e).sumSize + e.size = b.sumSize := by
  have hsum := keyed_sum_eraseP entry.key entry.size hnd hmem
  simpa [Bucket.deleteElement, Bucket.sumSize] using hsum

theorem Bucket.sizeInv_deleteElement {b : Bucket} {e : entry}
    (hnd : b.nodupKeys) (hmem : e ∈ b.entries)
    (hinv : b.sizeInv) (hub : b.sumSize < U64) :
    (b.deleteElement e).sizeInv := by
  have hes : e.size ≤ b.sumSize := keyed_sizef_le entry.size hmem
  have hsum := Bucket.sumSize_deleteElement hnd hmem
  have hx : u64sub b.size e.size = b.size - e.size :=
    u64sub_exact (by rw [hinv]; exact hes) (by rw [hinv]; exact hub)
  have hsize : (b.deleteElement e).size = b.size - e.size := by
    simp only [Bucket.deleteElement]
    exact hx
  show (b.deleteElement e).size = (b.deleteElement e).sumSize
  rw [hsize, hinv]
  omega

theorem Bucket.sumSize_refreshElement {b : Bucket} {e : entry}
    (hnd : b.nodupKeys) (hmem : e ∈ b.entries) :
    (b.refreshElement e).sumSize = b.sumSize := by
  have hsum := keyed_sum_eraseP entry.key entry.size hnd hmem
  simp only [Bucket.refreshElement, Bucket.sumSize, List.map_cons,
    List.sum_cons] at *
  omega

theorem Bucket.sizeInv_refreshElement {b : Bucket} {e : entry}
    (hnd : b.nodupKeys) (hmem : e ∈ b.entries) (hinv : b.sizeInv) :
    (b.refreshElement e).sizeInv := by
  have := Bucket.sumSize_refreshElement (e := e) hnd hmem
  simp only [Bucket.sizeInv, Bucket.refreshElement] at *
  omega

theorem Bucket.nodup_addElement {b : Bucket} {k v : String} {f c : Nat}
    (hnd : b.nodupKeys) (hnone : b.findElem k = none) :
    (b.addElement k v f c).nodupKeys := by
  refine List.pairwise_cons.mpr ⟨?_, hnd⟩
  intro e he
  exact fun hc => (Bucket.findElem_none hnone e he) hc.symm

theorem Bucket.nodup_updateElement {b : Bucket} {e : entry}
    {v : String} {f c : Nat} (hnd : b.nodupKeys) (hmem : e ∈ b.entries) :
    (b.updateElement e v f c).nodupKeys :=
  keyed_nodup_cons_eraseP entry.key hnd hmem _ rfl

theorem Bucket.nodup_refreshElement {b : Bucket} {e : entry}
    (hnd : b.nodupKeys) (hmem : e ∈ b.entries) :
    (b.refreshElement e).nodupKeys :=
  keyed_nodup_cons_eraseP entry.key hnd hmem _ rfl

theorem Bucket.nodup_deleteElement {b : Bucket} {e : entry}
    (hnd : b.nodupKeys) : (b.deleteElement e).nodupKeys :=
  List.Pairwise.sublist (List.eraseP_sublist _) hnd

theorem Bucket.evictLoop_props : ∀ (fuel : Nat) (b : Bucket),
    b.sizeInv → b.nodupKeys → b.sumSize < U64 →
    (b.evictLoop fuel).sizeInv ∧ (b.evictLoop fuel).nodupKeys ∧
      (b.evictLoop fuel).sumSize ≤ b.sumSize ∧
      (b.evictLoop fuel).capacity = b.capacity := by
  intro fuel
  induction fuel with
  | zero => intro b h1 h2 h3; exact ⟨h1, h2, le_refl _, rfl⟩
  | succ n ih =>
      intro b h1 h2 h3
      by_cases hc : b.size > b.capacity
      · rcases hl : b.entries.getLast? with _ | e
        · simp only [Bucket.evictLoop, if_pos hc, hl]
          exact ⟨h1, h2, le_refl _, trivial⟩
        · have hmem := getLast?_mem hl
          have h1' := Bucket.sizeInv_deleteElement h2 hmem h1 h3
          have h2' := Bucket.nodup_deleteElement (e := e) h2
          have hsum := Bucket.sumSize_deleteElement h2 hmem
          have h3' : (b.deleteElement e).sumSize < U64 := by omega
          simp only [Bucket.evictLoop, if_pos hc, hl]
          obtain ⟨a1, a2, a3, a4⟩ := ih (b.deleteElement e) h1' h2' h3'
          exact ⟨a1, a2, by omega, a4⟩
      · simp only [Bucket.evictLoop, if_neg hc]
        exact ⟨h1, h2, le_refl _, trivial⟩

theorem Bucket.evictLoop_le : ∀ (fuel : Nat) (b : Bucket),
    b.entries.length < fuel → b.sizeInv → b.nodupKeys → b.sumSize < U64 →
    (b.evictLoop fuel).size ≤ b.capacity := by
  intro fuel
  induction fuel with
  | zero => intro b hf; exact absurd hf (Nat.not_lt_zero _)
  | succ n ih =>
      intro b hf h1 h2 h3
      by_cases hc : b.size > b.capacity
      · have hne : b.entries ≠ [] := by
          intro hnil
          have hz : b.sumSize = 0 := by simp [Bucket.sumSize, hnil]
          rw [h1, hz] at hc
          omega
        have hl := List.getLast?_eq_getLast_of_ne_nil hne
        have hmem : b.entries.getLast hne ∈ b.entries := List.getLast_mem hne
        have h1' := Bucket.sizeInv_deleteElement h2 hmem h1 h3
        have h2' := Bucket.nodup_deleteElement (e := b.entries.getLast hne) h2
        have hsum := Bucket.sumSize_deleteElement h2 hmem
        have h3' : (b.deleteElement (b.entries.getLast hne)).sumSize < U64 :=
          by omega
        have hlen : (b.deleteElement (b.entries.getLast hne)).entries.length
            < n := by
          have hone := List.length_eraseP_add_one
            (p := fun x => x.key == (b.entries.getLast hne).key) hmem
            (by simp)
          simp only [Bucket.deleteElement]
          omega
        simp only [Bucket.evictLoop, if_pos hc, hl]
        exact ih _ hlen h1' h2' h3'
      · simp only [Bucket.evictLoop, if_neg hc]
        omega

/-! ## Engine-level lemmas -/

theorem Bucket.get_findElem {b : Bucket} {k : String} (hnd : b.nodupKeys)
    (k' : String) : ((b.get k).2).findElem k' = b.findElem k' := by
  rcases hfe : b.findElem k with _ | e
  · simp [Bucket.get, hfe]
  · obtain ⟨hmem, hkey⟩ := Bucket.findElem_some hfe
    simp only [Bucket.get, hfe]
    show (b.refreshElement e).findElem k' = b.findElem k'
    by_cases hk' : e.key = k'
    · have hkk : k' = k := hk'.symm.trans hkey
      subst hkk
      have h1 : (e.key == k') = true := by simpa using hk'
      simp only [Bucket.refreshElement, Bucket.findElem] at *
      simp [List.find?_cons_of_pos, h1, hfe]
    · have h1 : (e.key == k') = false := by simpa using hk'
      simp only [Bucket.refreshElement, Bucket.findElem]
      rw [List.find?_cons_of_neg _ (by simp [h1])]
      exact keyed_find?_eraseP_ne entry.key b.entries
        (fun hc => hk' hc.symm)

theorem Bucket.get_props {b : Bucket} {k : String} (hnd : b.nodupKeys) :
    ((b.get k).2).nodupKeys ∧ ((b.get k).2).sumSize = b.sumSize
      ∧ ((b.get k).2).size = b.size
      ∧ ((b.get k).2).capacity = b.capacity := by
  rcases hfe : b.findElem k with _ | e
  · simp [Bucket.get, hfe]
    exact hnd
  · obtain ⟨hmem, _⟩ := Bucket.findElem_some hfe
    simp only [Bucket.get, hfe]
    exact ⟨Bucket.nodup_refreshElement hnd hmem,
      Bucket.sumSize_refreshElement hnd hmem, rfl, rfl⟩

theorem Bucket.evictLoop_noop {b : Bucket} {n : Nat}
    (h : ¬b.size > b.capacity) : b.evictLoop (n + 1) = b := by
  simp [Bucket.evictLoop, h]

theorem Bucket.add_findElem_self {b : Bucket} {k v : String} {f c : Nat}
    (hinv : b.sizeInv) (hnd : b.nodupKeys)
    (hroom : b.sumSize + (glen k + glen v) ≤ b.capacity)
    (hcap : b.capacity < U64) :
    (b.add k v f c).findElem k = some ⟨k, v, f, c⟩ := by
  have hb : b.sumSize + (glen k + glen v) < U64 := by omega
  unfold Bucket.add Bucket.checkCapacity
  rcases hfe : b.findElem k with _ | e
  · have h1 := Bucket.sizeInv_addElement (f := f) (c := c) hinv hb
    have hsz : (b.addElement k v f c).size ≤ (b.addElement k v f c).capacity
        := by
      rw [h1, Bucket.sumSize_addElement]
      show (glen k + glen v) + b.sumSize ≤ b.capacity
      omega
    simp only [hfe]
    rw [Bucket.evictLoop_noop (by omega)]
    simp [Bucket.addElement, Bucket.findElem]
  · obtain ⟨hmem, hkey⟩ := Bucket.findElem_some hfe
    have hb' : b.sumSize + (glen e.key + glen v) < U64 := by rw [hkey]; omega
    have h1 := Bucket.sizeInv_updateElement (f := f) (c := c)
      hnd hmem hinv hb'
    have hsum := Bucket.sumSize_updateElement (v := v) (f := f) (c := c)
      hnd hmem
    have hsz : (b.updateElement e v f c).size
        ≤ (b.updateElement e v f c).capacity := by
      rw [h1]
      show (b.updateElement e v f c).sumSize ≤ b.capacity
      rw [hkey] at hsum
      omega
    simp only [hfe]
    rw [Bucket.evictLoop_noop (by omega)]
    simp [Bucket.updateElement, Bucket.findElem, hkey]

theorem LRU.bucketFor_mem {lru : LRU} (key : String) (hwf : lru.wfKeys) :
    lru.bucketFor key ∈ lru.buckets := by
  obtain ⟨h1, h2, _⟩ := hwf
  have hidx : lru.bucketIdx key < lru.buckets.length := by
    rw [h1]
    exact Nat.mod_lt _ h2
  simp only [LRU.bucketFor, List.getD_eq_getElem?_getD,
    List.getElem?_eq_getElem hidx, Option.getD_some]
  exact List.getElem_mem hidx

theorem LRU.nodup_bucketFor {lru : LRU} (key : String) (hwf : lru.wfKeys) :
    (lru.bucketFor key).nodupKeys :=
  hwf.2.2 _ (LRU.bucketFor_mem key hwf)

theorem LRU.bucketFor_set_same {lru : LRU} {k k' : String} {b : Bucket}
    (hwf : lru.wfKeys) (hidx : lru.bucketIdx k' = lru.bucketIdx k) :
    (lru.setBucketFor k b).bucketFor k' = b := by
  have hlen : lru.bucketIdx k < lru.buckets.length := by
    rw [hwf.1]
    exact Nat.mod_lt _ hwf.2.1
  show (lru.buckets.set (lru.bucketIdx k) b).getD
    ((lru.setBucketFor k b).bucketIdx k') _ = b
  have hsame : (lru.setBucketFor k b).bucketIdx k' = lru.bucketIdx k' := rfl
  rw [hsame, hidx, List.getD_eq_getElem?_getD,
    List.getElem?_set_self hlen, Option.getD_some]

theorem LRU.bucketFor_set_other {lru : LRU} {k k' : String} {b : Bucket}
    (hidx : lru.bucketIdx k' ≠ lru.bucketIdx k) :
    (lru.setBucketFor k b).bucketFor k' = lru.bucketFor k' := by
  show (lru.buckets.set (lru.bucketIdx k) b).getD
    ((lru.setBucketFor k b).bucketIdx k') _ = _
  have hsame : (lru.setBucketFor k b).bucketIdx k' = lru.bucketIdx k' := rfl
  rw [hsame, List.getD_eq_getElem?_getD,
    List.getElem?_set_ne (fun hc => hidx hc.symm),
    ← List.getD_eq_getElem?_getD]
  rfl

theorem LRU.wfKeys_set {lru : LRU} {k : String} {b : Bucket}
    (hwf : lru.wfKeys) (hbn : b.nodupKeys) :
    (lru.setBucketFor k b).wfKeys := by
  obtain ⟨h1, h2, h3⟩ := hwf
  refine ⟨?_, h2, ?_⟩
  · simp [LRU.setBucketFor, List.length_set, h1]
  · intro b' hb'
    rcases List.mem_or_eq_of_mem_set hb' with h | h
    · exact h3 b' h
    · exact h ▸ hbn

theorem LRU.Get_result (lru : LRU) (key : String) :
    (lru.Get key).1
      = (lru.lookup key).map (fun e => (e.value, e.flags, e.cas)) := by
  rcases hfe : (lru.bucketFor key).findElem key with _ | e <;>
    simp [LRU.Get, Bucket.get, LRU.lookup, hfe]

theorem LRU.Get_lookup (lru : LRU) (key : String) (hwf : lru.wfKeys)
    (k' : String) : ((lru.Get key).2).lookup k' = lru.lookup k' := by
  rcases hfe : (lru.bucketFor key).findElem key with _ | e
  · simp [LRU.Get, Bucket.get, hfe]
  · simp only [LRU.Get, Bucket.get, hfe]
    show ((lru.setBucketFor key
      ((lru.bucketFor key).refreshElement e)).bucketFor k').findElem k'
        = lru.lookup k'
    by_cases hidx : lru.bucketIdx k' = lru.bucketIdx key
    · rw [LRU.bucketFor_set_same hwf hidx]
      have hnd := LRU.nodup_bucketFor key hwf
      have := Bucket.get_findElem (b := lru.bucketFor key) (k := key)
        hnd k'
      simp only [Bucket.get, hfe] at this
      rw [this]
      show (lru.bucketFor key).findElem k' = (lru.bucketFor k').findElem k'
      simp only [LRU.bucketFor, LRU.bucketIdx] at *
      rw [hidx]
    · rw [LRU.bucketFor_set_other hidx]
      rfl

theorem LRU.Get_wfKeys (lru : LRU) (key : String) (hwf : lru.wfKeys) :
    ((lru.Get key).2).wfKeys := by
  rcases hfe : (lru.bucketFor key).findElem key with _ | e
  · simpa [LRU.Get, Bucket.get, hfe] using hwf
  · simp only [LRU.Get, Bucket.get, hfe]
    have hnd := LRU.nodup_bucketFor key hwf
    obtain ⟨hmem, _⟩ := Bucket.findElem_some hfe
    exact LRU.wfKeys_set hwf (Bucket.nodup_refreshElement hnd hmem)

theorem LRU.Get_casToken (lru : LRU) (key : String) :
    ((lru.Get key).2).casToken = lru.casToken := by
  rcases hfe : (lru.bucketFor key).findElem key with _ | e <;>
    simp [LRU.Get, Bucket.get, LRU.setBucketFor, hfe]

theorem LRU.Add_lookup_self (lru : LRU) (key v : String) (f : Nat)
    (hwf : lru.wfKeys) (hinv : (lru.bucketFor key).sizeInv)
    (hroom : (lru.bucketFor key).sumSize + (glen key + glen v)
      ≤ (lru.bucketFor key).capacity)
    (hcap : (lru.bucketFor key).capacity < U64) :
    (lru.Add key v f).lookup key
      = some ⟨key, v, f, u64add lru.casToken 1⟩ := by
  have hnd := LRU.nodup_bucketFor key hwf
  show ((lru.Add key v f).bucketFor key).findElem key = _
  have hwf' : ({ lru with casToken := u64add lru.casToken 1 } : LRU).wfKeys
      := hwf
  have hb : ({ lru with casToken := u64add lru.casToken 1 } : LRU).bucketFor
      key = lru.bucketFor key := rfl
  show ((LRU.setBucketFor _ key _).bucketFor key).findElem key = _
  rw [LRU.bucketFor_set_same hwf' rfl]
  exact Bucket.add_findElem_self hinv hnd hroom hcap

theorem LRU.Get_miss {lru : LRU} {key : String}
    (h : lru.lookup key = none) : lru.Get key = (none, lru) := by
  simp only [LRU.lookup] at h
  simp [LRU.Get, Bucket.get, h]

theorem LRU.Delete_miss {lru : LRU} {key : String}
    (h : lru.lookup key = none) : lru.Delete key = (false, lru) := by
  simp only [LRU.lookup] at h
  simp [LRU.Delete, Bucket.delete, h]

theorem foldl_append_shift : ∀ (t : List String) (acc : String),
    t.foldl (fun r s => r ++ s) acc = acc ++ t.foldl (fun r s => r ++ s) ""
    := by
  intro t
  induction t with
  | nil => intro acc; simp
  | cons x t ih =>
      intro acc
      show List.foldl _ (acc ++ x) t = acc ++ List.foldl _ ("" ++ x) t
      rw [ih (acc ++ x), ih ("" ++ x)]
      simp [String.append_assoc]

theorem join_cons (x : String) (t : List String) :
    String.join (x :: t) = x ++ String.join t := by
  show List.foldl _ ("" ++ x) t = _
  rw [foldl_append_shift t ("" ++ x)]
  simp [String.join]

theorem join_all_empty {l : List String} (h : ∀ s ∈ l, s = "") :
    String.join l = "" := by
  induction l with
  | nil => rfl
  | cons x t ih =>
      rw [join_cons, h x (by simp), ih (fun s hs => h s (by simp [hs]))]
      rfl

theorem getDispatch_spec : ∀ (keys : List String) (lru : LRU), lru.wfKeys →
    (getDispatch lru keys).2
      = String.join (keys.map fun k => specValueLine (lru.lookup k) k) := by
  intro keys
  induction keys with
  | nil => intro lru _; rfl
  | cons k rest ih =>
      intro lru hwf
      rcases hl : lru.lookup k with _ | e
      · have hg := LRU.Get_miss hl
        simp only [getDispatch]
        rw [hg]
        show (getDispatch lru rest).2 = _
        rw [ih lru hwf, List.map_cons, join_cons]
        simp [specValueLine, hl]
      · have h1 : (lru.Get k).1 = some (e.value, e.flags, e.cas) := by
          rw [LRU.Get_result, hl]
          rfl
        have heta : lru.Get k
            = (some (e.value, e.flags, e.cas), (lru.Get k).2) := by
          rw [← h1]
        simp only [getDispatch]
        rw [heta]
        show ("VALUE " ++ k ++ " " ++ toString e.flags ++ " "
            ++ toString (glen e.value) ++ endOfLine ++ e.value ++ endOfLine)
            ++ (getDispatch ((lru.Get k).2) rest).2 = _
        rw [ih ((lru.Get k).2) (LRU.Get_wfKeys lru k hwf)]
        have hrest : ∀ x ∈ rest,
            specValueLine (((lru.Get k).2).lookup x) x
              = specValueLine (lru.lookup x) x := fun x _ => by
          rw [LRU.Get_lookup lru k hwf x]
        rw [List.map_congr_left hrest, List.map_cons, join_cons, hl]
        simp [specValueLine, String.append_assoc]

/-! ## Stamped-shard lemmas (for the LRU-order claim) -/

instance (l : List TEntry) : Decidable (stampsDesc l) :=
  List.instDecidablePairwise l

instance (b : TBucket) : Decidable b.nodupKeys :=
  List.instDecidablePairwise b.entries

instance (b : TBucket) : Decidable b.sizeInv :=
  decidable_of_iff (b.size = b.sumSize) Iff.rfl

instance (b : TBucket) (clock : Nat) : Decidable (b.freshClock clock) :=
  List.decidableBAll _ b.entries

theorem TBucket.findElem_mem_key {b : TBucket} {key : String} {te : TEntry}
    (h : b.findElem key = some te) : te ∈ b.entries ∧ te.key = key := by
  refine ⟨List.mem_of_find?_eq_some h, ?_⟩
  have := List.find?_some h
  simpa using this

theorem oldestTouch_of_desc : ∀ {l : List TEntry},
    stampsDesc l → (hne : l ≠ []) →
    oldestTouch l = some (l.getLast hne) := by
  intro l
  induction l with
  | nil => intro _ hne; exact absurd rfl hne
  | cons te rest ih =>
      intro hdesc hne
      rcases List.pairwise_cons.mp hdesc with ⟨hhead, htail⟩
      by_cases hr : rest = []
      · subst hr
        rfl
      · have hold := ih htail hr
        have hlast : (te :: rest).getLast hne = rest.getLast hr :=
          List.getLast_cons hr
        have hle : (rest.getLast hr).stamp ≤ te.stamp :=
          le_of_lt (hhead _ (List.getLast_mem hr))
        show (match oldestTouch rest with
          | none => some te
          | some o => if o.stamp ≤ te.stamp then some o else some te)
          = some ((te :: rest).getLast hne)
        rw [hold, hlast]
        simp [hle]

theorem tb_evictLoop_sublist : ∀ (fuel : Nat) (b : TBucket),
    (TBucket.evictLoop b fuel).entries.Sublist b.entries := by
  intro fuel
  induction fuel with
  | zero => intro b; exact List.Sublist.refl _
  | succ n ih =>
      intro b
      by_cases hc : b.size > b.capacity
      · rcases hl : b.entries.getLast? with _ | te
        · simp only [TBucket.evictLoop, if_pos hc, hl]
          exact List.Sublist.refl _
        · simp only [TBucket.evictLoop, if_pos hc, hl]
          exact List.Sublist.trans (ih (b.deleteElement te))
            (List.eraseP_sublist _)
      · simp only [TBucket.evictLoop, if_neg hc]
        exact List.Sublist.refl _

theorem tb_addRaw_head (b : TBucket) (k v : String) (f c clock : Nat) :
    (b.addRaw k v f c clock).entries.head? = some ⟨⟨k, v, f, c⟩, clock⟩
    := by
  unfold TBucket.addRaw
  rcases hfe : b.findElem k with _ | te
  · rfl
  · have hkey : te.key = k := (TBucket.findElem_mem_key hfe).2
    simp only [TBucket.updateElement]
    show some (⟨⟨te.key, v, f, c⟩, clock⟩ : TEntry) = _
    rw [hkey]

theorem tb_get_head {b : TBucket} {k : String} {te : TEntry} (clock : Nat)
    (h : b.findElem k = some te) :
    ((b.get k clock).2).entries.head? = some ⟨te.ent, clock⟩ := by
  simp only [TBucket.get, h]
  rfl

theorem tb_touch_invariants (b : TBucket) (k v : String) (f c clock : Nat)
    (hdesc : stampsDesc b.entries) (hfresh : b.freshClock clock) :
    stampsDesc (b.addRaw k v f c clock).entries
    ∧ (b.addRaw k v f c clock).freshClock (clock + 1)
    ∧ stampsDesc ((b.get k clock).2).entries
    ∧ ((b.get k clock).2).freshClock (clock + 1) := by
  have hsubmem : ∀ {kk : String} {x : TEntry},
      x ∈ b.entries.eraseP (fun y => y.key == kk) → x ∈ b.entries :=
    fun hx => (List.eraseP_sublist _).subset hx
  have hdescsub : ∀ (kk : String),
      stampsDesc (b.entries.eraseP (fun y => y.key == kk)) := fun kk =>
    List.Pairwise.sublist (List.eraseP_sublist _) hdesc
  refine ⟨?_, ?_, ?_, ?_⟩
  · unfold TBucket.addRaw
    rcases hfe : b.findElem k with _ | te
    · exact List.pairwise_cons.mpr ⟨fun x hx => hfresh x hx, hdesc⟩
    · exact List.pairwise_cons.mpr
        ⟨fun x hx => hfresh x (hsubmem hx), hdescsub _⟩
  · unfold TBucket.addRaw
    rcases hfe : b.findElem k with _ | te
    · intro x hx
      rcases List.mem_cons.mp hx with h | h
      · rw [h]; exact Nat.lt_succ_self clock
      · have := hfresh x h; omega
    · intro x hx
      rcases List.mem_cons.mp hx with h | h
      · rw [h]; exact Nat.lt_succ_self clock
      · have := hfresh x (hsubmem h); omega
  · rcases hfe : b.findElem k with _ | te
    · simpa [TBucket.get, hfe] using hdesc
    · simp only [TBucket.get, hfe]
      exact List.pairwise_cons.mpr
        ⟨fun x hx => hfresh x (hsubmem hx), hdescsub _⟩
  · rcases hfe : b.findElem k with _ | te
    · simp only [TBucket.get, hfe]
      intro x hx
      have := hfresh x hx
      omega
    · simp only [TBucket.get, hfe]
      intro x hx
      rcases List.mem_cons.mp hx with h | h
      · rw [h]; exact Nat.lt_succ_self clock
      · have := hfresh x (hsubmem h); omega

theorem tEvictLoop_eq_spec : ∀ (fuel : Nat) (b : TBucket),
    b.nodupKeys → stampsDesc b.entries → b.sizeInv → b.sumSize < U64 →
    TBucket.evictLoop b fuel = TBucket.specEvictLoop b fuel := by
  intro fuel
  induction fuel with
  | zero => intro b _ _ _ _; rfl
  | succ n ih =>
      intro b hnd hdesc hinv hub
      by_cases hc : b.size > b.capacity
      · cases hemp : b.entries with
        | nil =>
            simp only [TBucket.evictLoop, TBucket.specEvictLoop, if_pos hc,
              hemp]
            rfl
        | cons x t =>
            have hne : b.entries ≠ [] := by rw [hemp]; simp
            have hl := List.getLast?_eq_getLast_of_ne_nil hne
            have hold := oldestTouch_of_desc hdesc hne
            have hmem : b.entries.getLast hne ∈ b.entries :=
              List.getLast_mem hne
            have hes : (b.entries.getLast hne).size ≤ b.sumSize :=
              keyed_sizef_le TEntry.size hmem
            have hsz : u64sub b.size (b.entries.getLast hne).size
                = b.size - (b.entries.getLast hne).size :=
              u64sub_exact (hinv ▸ hes) (hinv ▸ hub)
            have hdel : b.deleteElement (b.entries.getLast hne)
                = b.specRemove (b.entries.getLast hne) := by
              simp only [TBucket.deleteElement, TBucket.specRemove, hsz]
            have hsum := keyed_sum_eraseP TEntry.key TEntry.size hnd hmem
            have hnd' : (b.specRemove (b.entries.getLast hne)).nodupKeys :=
              List.Pairwise.sublist (List.eraseP_sublist _) hnd
            have hdesc' :
                stampsDesc (b.specRemove (b.entries.getLast hne)).entries :=
              List.Pairwise.sublist (List.eraseP_sublist _) hdesc
            have h1 : b.sumSize = (b.entries.map TEntry.size).sum := rfl
            have hinveq : b.size = b.sumSize := hinv
            have hinv' : (b.specRemove (b.entries.getLast hne)).sizeInv := by
              show b.size - (b.entries.getLast hne).size
                = ((b.entries.eraseP
                    (fun x => x.key == (b.entries.getLast hne).key)).map
                    TEntry.size).sum
              rw [hinveq, h1]
              omega
            have hub' :
                (b.specRemove (b.entries.getLast hne)).sumSize < U64 := by
              show ((b.entries.eraseP
                  (fun x => x.key == (b.entries.getLast hne).key)).map
                  TEntry.size).sum < U64
              rw [h1] at hub
              omega
            simp only [TBucket.evictLoop, TBucket.specEvictLoop, if_pos hc,
              hl, hold]
            rw [hdel]
            exact ih _ hnd' hdesc' hinv' hub'
      · simp only [TBucket.evictLoop, TBucket.specEvictLoop, if_neg hc]

/-! ## Claim theorems -/

/-- C3.  For every shard whose size accounting and key uniqueness hold (and
whose real byte total does not overflow `uint64`), every `Add` — including
one whose single new entry exceeds the shard's capacity — leaves
`size_bytes ≤ capacity_bytes`: `checkCapacity` evicts from the back until
the bound holds, and an empty shard has size 0. -/
theorem c3_add_respects_capacity (b : Bucket) (key value : String)
    (flags cas : Nat) (hinv : b.sizeInv) (hnd : b.nodupKeys)
    (hb : b.sumSize + (glen key + glen value) < U64) :
    (b.add key value flags cas).size ≤ b.capacity := by
  unfold Bucket.add
  rcases hfe : b.findElem key with _ | e
  · have h1 := Bucket.sizeInv_addElement (f := flags) (c := cas) hinv hb
    have h2 := Bucket.nodup_addElement (v := value) (f := flags) (c := cas)
      hnd hfe
    have h3 : (b.addElement key value flags cas).sumSize < U64 := by
      rw [Bucket.sumSize_addElement]
      omega
    exact Bucket.evictLoop_le _ _ (by omega) h1 h2 h3
  · obtain ⟨hmem, hkey⟩ := Bucket.findElem_some hfe
    have hb' : b.sumSize + (glen e.key + glen value) < U64 := by
      rw [hkey]; exact hb
    have h1 := Bucket.sizeInv_updateElement (f := flags) (c := cas)
      hnd hmem hinv hb'
    have h2 := Bucket.nodup_updateElement (v := value) (f := flags)
      (c := cas) hnd hmem
    have h3 : (b.updateElement e value flags cas).sumSize < U64 := by
      have := Bucket.sumSize_updateElement (v := value) (f := flags)
        (c := cas) hnd hmem
      omega
    exact Bucket.evictLoop_le _ _ (by omega) h1 h2 h3

/-- Witness for C3 at a concrete input, exercising the oversized-entry
case: a 7-byte entry added to an empty 5-byte shard is itself evicted,
leaving size 0 ≤ 5. -/
theorem c3_witness :
    (⟨5, 0, []⟩ : Bucket).sizeInv
      ∧ ((⟨5, 0, []⟩ : Bucket).add "abc" "defg" 0 1).size ≤ 5 :=
  ⟨by decide,
    c3_add_respects_capacity ⟨5, 0, []⟩ "abc" "defg" 0 1 (by decide)
      (by simp [Bucket.nodupKeys]) (by decide)⟩

/-- C4.  Size accounting: `size_bytes == sum(len(key)+len(value))` holds
for every bucket of a new engine and is preserved by every shard
operation — `add` (both the insert branch and the update-in-place branch,
either direction of size change, including the eviction pass), `get` (hit
or miss), `delete`, and a bare `checkCapacity` eviction — given key
uniqueness and that the shard's true byte total stays below 2^64 (Go
`uint64` arithmetic cannot wrap on real memory sizes). -/
theorem c4_size_accounting :
    (∀ capacity numBuckets : Nat,
      ∀ b ∈ (NewLRU capacity numBuckets).buckets, b.sizeInv)
    ∧ (∀ (b : Bucket) (k v : String) (f c : Nat), b.sizeInv → b.nodupKeys →
        b.sumSize + (glen k + glen v) < U64 → (b.add k v f c).sizeInv)
    ∧ (∀ (b : Bucket) (k : String), b.sizeInv → b.nodupKeys →
        ((b.get k).2).sizeInv)
    ∧ (∀ (b : Bucket) (k : String), b.sizeInv → b.nodupKeys →
        b.sumSize < U64 → ((b.delete k).2).sizeInv)
    ∧ (∀ b : Bucket, b.sizeInv → b.nodupKeys → b.sumSize < U64 →
        b.checkCapacity.sizeInv) := by
  refine ⟨?_, ?_, ?_, ?_, ?_⟩
  · intro cap n b hb
    have := List.eq_of_mem_replicate hb
    subst this
    simp [Bucket.sizeInv, Bucket.sumSize]
  · intro b k v f c hinv hnd hb
    unfold Bucket.add Bucket.checkCapacity
    rcases hfe : b.findElem k with _ | e
    · have h1 := Bucket.sizeInv_addElement (f := f) (c := c) hinv hb
      have h2 := Bucket.nodup_addElement (v := v) (f := f) (c := c) hnd hfe
      have h3 : (b.addElement k v f c).sumSize < U64 := by
        rw [Bucket.sumSize_addElement]
        omega
      exact (Bucket.evictLoop_props _ _ h1 h2 h3).1
    · obtain ⟨hmem, hkey⟩ := Bucket.findElem_some hfe
      have hb' : b.sumSize + (glen e.key + glen v) < U64 := by
        rw [hkey]; exact hb
      have h1 := Bucket.sizeInv_updateElement (f := f) (c := c)
        hnd hmem hinv hb'
      have h2 := Bucket.nodup_updateElement (v := v) (f := f) (c := c)
        hnd hmem
      have h3 : (b.updateElement e v f c).sumSize < U64 := by
        have := Bucket.sumSize_updateElement (v := v) (f := f) (c := c)
          hnd hmem
        omega
      exact (Bucket.evictLoop_props _ _ h1 h2 h3).1
  · intro b k hinv hnd
    rcases hfe : b.findElem k with _ | e
    · simp only [Bucket.get, hfe]
      exact hinv
    · simp only [Bucket.get, hfe]
      exact Bucket.sizeInv_refreshElement hnd
        (Bucket.findElem_some hfe).1 hinv
  · intro b k hinv hnd hub
    rcases hfe : b.findElem k with _ | e
    · simp only [Bucket.delete, hfe]
      exact hinv
    · simp only [Bucket.delete, hfe]
      exact Bucket.sizeInv_deleteElement hnd
        (Bucket.findElem_some hfe).1 hinv hub
  · intro b hinv hnd hub
    exact (Bucket.evictLoop_props _ b hinv hnd hub).1

/-- Witness for C4 at concrete shards: an update that shrinks the stored
value, a `get` hit, a `delete`, and an eviction pass all keep the byte
counter equal to the summed entry sizes. -/
theorem c4_witness :
    ((⟨10, 6, [⟨"a", "bcdef", 0, 1⟩]⟩ : Bucket).add "a" "z" 0 2).sizeInv
    ∧ (((⟨10, 3, [⟨"a", "bc", 0, 1⟩]⟩ : Bucket).get "a").2).sizeInv
    ∧ (((⟨10, 3, [⟨"a", "bc", 0, 1⟩]⟩ : Bucket).delete "a").2).sizeInv
    ∧ ((⟨1, 3, [⟨"a", "bc", 0, 1⟩]⟩ : Bucket).checkCapacity).sizeInv :=
  ⟨c4_size_accounting.2.1 _ "a" "z" 0 2 (by decide) (by decide) (by decide),
   c4_size_accounting.2.2.1 _ "a" (by decide) (by decide),
   c4_size_accounting.2.2.2.1 _ "a" (by decide) (by decide) (by decide),
   c4_size_accounting.2.2.2.2 _ (by decide) (by decide) (by decide)⟩

/-- C1.  The `cas` arm's compare and store are **not** atomic relative to
other writers on the key: the code reads the stored token with
`server.Cache.Get` (one critical section) and stores with
`server.Cache.Add` (another).  Concrete interleaving: the stored entry for
`"k"` has token 1; client A's read phase for `cas` with token 1 sees 1;
writer B then runs `set k other` (token 2); A's write phase still compares
against the token it read earlier, replies `STORED`, and overwrites B's
value — although at the moment of the store the stored token was 2 ≠ 1, so
A's token was stale and B's update is lost. -/
theorem c1_cas_not_atomic_lost_update :
    (casReadPhase ((NewLRU 100 1).Add "k" "v" 0)
        { cmd := "cas", keys := ["k"], flags := 0, n := 1, cas := 1,
          dataBlock := "A" }).1
      = some ("v", 0, 1)
    ∧ ((((casReadPhase ((NewLRU 100 1).Add "k" "v" 0)
        { cmd := "cas", keys := ["k"], flags := 0, n := 1, cas := 1,
          dataBlock := "A" }).2.Add "k" "other" 0).Get "k")).1
      = some ("other", 0, 2)
    ∧ (casWritePhase
        ((casReadPhase ((NewLRU 100 1).Add "k" "v" 0)
          { cmd := "cas", keys := ["k"], flags := 0, n := 1, cas := 1,
            dataBlock := "A" }).2.Add "k" "other" 0)
        { cmd := "cas", keys := ["k"], flags := 0, n := 1, cas := 1,
          dataBlock := "A" }
        (casReadPhase ((NewLRU 100 1).Add "k" "v" 0)
          { cmd := "cas", keys := ["k"], flags := 0, n := 1, cas := 1,
            dataBlock := "A" }).1).2
      = replyStored
    ∧ ((casWritePhase
        ((casReadPhase ((NewLRU 100 1).Add "k" "v" 0)
          { cmd := "cas", keys := ["k"], flags := 0, n := 1, cas := 1,
            dataBlock := "A" }).2.Add "k" "other" 0)
        { cmd := "cas", keys := ["k"], flags := 0, n := 1, cas := 1,
          dataBlock := "A" }
        (casReadPhase ((NewLRU 100 1).Add "k" "v" 0)
          { cmd := "cas", keys := ["k"], flags := 0, n := 1, cas := 1,
            dataBlock := "A" }).1).1.Get "k").1
      = some ("A", 0, 3) := by
  decide

/-- C2.  Sequential semantics of the handler's `cas` arm, for the key the
request carries: if the key is absent the reply is `NOT_FOUND\r\n` and the
engine is returned untouched; if it is present with a different stored
token the reply is `EXISTS\r\n` and the stored entry (value, flags, token)
is unchanged; if it is present and the stored token equals the request's,
the reply is `STORED\r\n` and the add is performed — when the shard has
room (no immediate eviction of the fresh entry) the key afterwards maps to
the request's data block, flags, and the freshly issued token. -/
theorem c2_cas_branches (lru : LRU) (r : Request) (e : entry)
    (hwf : lru.wfKeys) :
    (lru.lookup (r.keys.headD "") = none →
      casDispatch lru r = (lru, replyNotFound))
    ∧ (lru.lookup (r.keys.headD "") = some e → r.cas ≠ e.cas →
      (casDispatch lru r).2 = replyExists
        ∧ (casDispatch lru r).1.lookup (r.keys.headD "") = some e)
    ∧ (lru.lookup (r.keys.headD "") = some e → r.cas = e.cas →
      (casDispatch lru r).2 = replyStored
        ∧ ((lru.bucketFor (r.keys.headD "")).sizeInv →
          (lru.bucketFor (r.keys.headD "")).sumSize
              + (glen (r.keys.headD "") + glen r.dataBlock)
            ≤ (lru.bucketFor (r.keys.headD "")).capacity →
          (lru.bucketFor (r.keys.headD "")).capacity < U64 →
          (casDispatch lru r).1.lookup (r.keys.headD "")
            = some ⟨r.keys.headD "", r.dataBlock, r.flags,
                u64add lru.casToken 1⟩)) := by
  have hsplit : casDispatch lru r
      = casWritePhase (lru.Get (r.keys.headD "")).2 r
          (lru.Get (r.keys.headD "")).1 := rfl
  refine ⟨?_, ?_, ?_⟩
  · intro hmiss
    rw [hsplit, LRU.Get_miss hmiss]
    rfl
  · intro hsome hne
    have h1 : (lru.Get (r.keys.headD "")).1
        = some (e.value, e.flags, e.cas) := by
      rw [LRU.Get_result, hsome]
      rfl
    rw [hsplit, h1]
    simp only [casWritePhase, if_pos hne]
    exact ⟨trivial, by rw [LRU.Get_lookup lru _ hwf, hsome]⟩
  · intro hsome heq
    have h1 : (lru.Get (r.keys.headD "")).1
        = some (e.value, e.flags, e.cas) := by
      rw [LRU.Get_result, hsome]
      rfl
    have hno : ¬r.cas ≠ e.cas := by simpa using heq
    rw [hsplit, h1]
    simp only [casWritePhase, if_neg hno]
    refine ⟨trivial, ?_⟩
    intro hinv hroom hcap
    set key := r.keys.headD "" with hkeydef
    set lru₁ := (lru.Get key).2 with hlru₁
    have hwf₁ : lru₁.wfKeys := LRU.Get_wfKeys lru key hwf
    have hb₁ : lru₁.bucketFor key = ((lru.bucketFor key).get key).2 := by
      rw [hlru₁]
      rcases hfe : (lru.bucketFor key).findElem key with _ | e'
      · simp [LRU.Get, Bucket.get, hfe]
      · simp only [LRU.Get, Bucket.get, hfe]
        exact LRU.bucketFor_set_same hwf rfl
    have hnd := LRU.nodup_bucketFor key hwf
    obtain ⟨hn1, hs1, hz1, hc1⟩ := Bucket.get_props (k := key) hnd
    have hinv₁ : (lru₁.bucketFor key).sizeInv := by
      rw [hb₁]
      show ((lru.bucketFor key).get key).2.size
        = ((lru.bucketFor key).get key).2.sumSize
      rw [hz1, hs1]
      exact hinv
    have hroom₁ : (lru₁.bucketFor key).sumSize
        + (glen key + glen r.dataBlock) ≤ (lru₁.bucketFor key).capacity := by
      rw [hb₁, hs1, hc1]
      exact hroom
    have hcap₁ : (lru₁.bucketFor key).capacity < U64 := by
      rw [hb₁, hc1]
      exact hcap
    have := LRU.Add_lookup_self lru₁ key r.dataBlock r.flags hwf₁ hinv₁
      hroom₁ hcap₁
    rw [this, LRU.Get_casToken]

/-- Witness for C2 on a one-entry engine: a matching-token `cas` stores the
data block and replies `STORED`, a stale token replies `EXISTS` leaving the
entry, and a missing key replies `NOT_FOUND`. -/
theorem c2_witness :
    ((NewLRU 100 1).Add "k1" "v" 5).lookup "k1" = some ⟨"k1", "v", 5, 1⟩
    ∧ (casDispatch ((NewLRU 100 1).Add "k1" "v" 5)
        { cmd := "cas", keys := ["k1"], flags := 7, n := 3, cas := 1,
          dataBlock := "zoo" }).2 = replyStored
    ∧ (casDispatch ((NewLRU 100 1).Add "k1" "v" 5)
        { cmd := "cas", keys := ["k1"], flags := 7, n := 3, cas := 9,
          dataBlock := "zoo" }).2 = replyExists
    ∧ casDispatch ((NewLRU 100 1).Add "k1" "v" 5)
        { cmd := "cas", keys := ["nosuch"], flags := 0, n := 1, cas := 1,
          dataBlock := "x" }
        = ((NewLRU 100 1).Add "k1" "v" 5, replyNotFound) :=
  ⟨by decide,
   ((c2_cas_branches ((NewLRU 100 1).Add "k1" "v" 5)
      { cmd := "cas", keys := ["k1"], flags := 7, n := 3, cas := 1,
        dataBlock := "zoo" } ⟨"k1", "v", 5, 1⟩
      (by decide)).2.2 (by decide) (by decide)).1,
   ((c2_cas_branches ((NewLRU 100 1).Add "k1" "v" 5)
      { cmd := "cas", keys := ["k1"], flags := 7, n := 3, cas := 9,
        dataBlock := "zoo" } ⟨"k1", "v", 5, 1⟩
      (by decide)).2.1 (by decide) (by decide)).1,
   (c2_cas_branches ((NewLRU 100 1).Add "k1" "v" 5)
      { cmd := "cas", keys := ["nosuch"], flags := 0, n := 1, cas := 1,
        dataBlock := "x" } ⟨"", "", 0, 0⟩
      (by decide)).1 (by decide)⟩

/-- C7.  A `get` request over keys `k1..kn` (all within the length limit)
writes, for each key that hits and in request order, exactly the block
`VALUE <key> <flags> <len>\r\n<value>\r\n`; missing keys contribute
nothing; and after all keys exactly one `END\r\n` follows — in particular
an all-miss `get` replies just `END\r\n`. -/
theorem c7_get_reply (lru : LRU) (r : Request) (hwf : lru.wfKeys)
    (herr : r.err = none) (hcmd : r.cmd = cmdGet)
    (hkeys : ∀ k ∈ r.keys, glen k ≤ maxKeyLength) :
    (handleRequest lru r).2
      = String.join (r.keys.map fun k => specValueLine (lru.lookup k) k)
        ++ replyEnd
    ∧ ((∀ k ∈ r.keys, lru.lookup k = none) →
      (handleRequest lru r).2 = replyEnd) := by
  have hklo : String.join (r.keys.map (fun k =>
      if glen k > maxKeyLength then
        "CLIENT_ERROR key is too long (max is 250 bytes)" ++ endOfLine
      else "")) = "" := by
    apply join_all_empty
    intro s hs
    obtain ⟨k, hk, hks⟩ := List.mem_map.mp hs
    rw [← hks, if_neg (by have := hkeys k hk; omega)]
  have hmain : (handleRequest lru r).2
      = String.join (r.keys.map fun k => specValueLine (lru.lookup k) k)
        ++ replyEnd := by
    simp only [handleRequest, herr, hcmd]
    rw [if_neg (by decide : ¬cmdGet = cmdQuit)]
    simp only [dispatch, hcmd]
    rw [if_neg (by decide : ¬cmdGet = cmdCas),
      if_neg (by decide : ¬cmdGet = cmdDelete),
      if_pos trivial]
    show String.join _ ++ ((getDispatch lru r.keys).2 ++ replyEnd) = _
    rw [hklo, getDispatch_spec r.keys lru hwf]
    simp
  refine ⟨hmain, ?_⟩
  intro hmiss
  rw [hmain]
  have : String.join (r.keys.map fun k => specValueLine (lru.lookup k) k)
      = "" := by
    apply join_all_empty
    intro s hs
    obtain ⟨k, hk, hks⟩ := List.mem_map.mp hs
    rw [← hks, hmiss k hk]
    rfl
  rw [this]
  simp

/-- Witness for C7: with `k1 = wombat` (flags 13) stored, the request
`get k1 nokey` produces exactly the `VALUE` block for `k1` followed by one
`END\r\n`. -/
theorem c7_witness :
    (handleRequest ((NewLRU 100 1).Add "k1" "wombat" 13)
        { cmd := "get", keys := ["k1", "nokey"] }).2
      = String.join (["k1", "nokey"].map fun k =>
          specValueLine (((NewLRU 100 1).Add "k1" "wombat" 13).lookup k) k)
        ++ replyEnd :=
  (c7_get_reply ((NewLRU 100 1).Add "k1" "wombat" 13)
    { cmd := "get", keys := ["k1", "nokey"] }
    (by decide) rfl rfl (by decide)).1

/-- C9 (amended).  The parser is a total function returning a request and
an optional error: an empty line yields `no command provided`; a `delete`
line with no key token yields `Insufficient args`; a `get`/`gets` line
with no key token parses *without* error into an empty key list (the
handler then replies just `END\r\n`); and the handler answers any request
carrying a parse error with `CLIENT_ERROR <message>\r\n`, leaving the
cache untouched (the connection continues). -/
theorem c9_parser_totality (line : String) (lru : LRU) (r : Request)
    (m : String) :
    (line = "" → parseRequest line = ({}, some "no command provided"))
    ∧ (line ≠ "" → (gsplit line).headD "" = cmdDelete →
        (gsplit line).length < 2 →
        (parseRequest line).2 = some errInsufficientArgs)
    ∧ (line ≠ "" →
        ((gsplit line).headD "" = cmdGet
          ∨ (gsplit line).headD "" = cmdGets) →
        (parseRequest line).2 = none
          ∧ (parseRequest line).1.keys = (gsplit line).drop 1)
    ∧ (r.err = some m →
        handleRequest lru r = (lru, "CLIENT_ERROR " ++ m ++ endOfLine)) := by
  refine ⟨?_, ?_, ?_, ?_⟩
  · intro h
    rw [h]
    rfl
  · intro hne hcmd hlen
    simp only [parseRequest, if_neg hne]
    rw [if_neg (fun hc => by rw [hcmd] at hc; exact absurd hc (by decide)),
      if_pos hcmd, if_pos hlen]
  · intro hne hcmd
    have hnc : ¬(gsplit line).headD "" = cmdCas := by
      rcases hcmd with h | h <;> rw [h] <;> decide
    have hnd : ¬(gsplit line).headD "" = cmdDelete := by
      rcases hcmd with h | h <;> rw [h] <;> decide
    simp only [parseRequest, if_neg hne, if_neg hnc, if_neg hnd,
      if_pos hcmd]
    exact ⟨by trivial, by trivial⟩
  · intro herr
    simp [handleRequest, herr]

/-- Witness for C9 at concrete lines: the empty line, `delete` without a
key, and `get` without a key; plus the handler's `CLIENT_ERROR` reply for
a request carrying a parse error. -/
theorem c9_witness :
    parseRequest "" = ({}, some "no command provided")
    ∧ (parseRequest "delete").2 = some errInsufficientArgs
    ∧ ((parseRequest "gets").2 = none ∧ (parseRequest "gets").1.keys = [])
    ∧ handleRequest (NewLRU 100 1) { err := some "Insufficient args" }
      = (NewLRU 100 1, "CLIENT_ERROR Insufficient args" ++ endOfLine) :=
  ⟨(c9_parser_totality "" (NewLRU 100 1) {} "").1 rfl,
   (c9_parser_totality "delete" (NewLRU 100 1) {} "").2.1 (by decide)
     (by decide) (by decide),
   (c9_parser_totality "gets" (NewLRU 100 1) {} "").2.2.1 (by decide)
     (by decide),
   (c9_parser_totality "" (NewLRU 100 1)
     { err := some "Insufficient args" } "Insufficient args").2.2.2 rfl⟩

/-- C10.  `Get` and `Delete` on an absent key fail with `ErrCacheMiss`
(modelled as `none` resp. `false`, alongside which the Go code returns the
zero values `"", 0, 0`) and return the engine exactly as it was: the entry
set, every value, flags and CAS token, the recency order, the size
counters, and the CAS token counter are all unchanged — both operations
return before any mutation when the key is absent. -/
theorem c10_miss_leaves_state_unchanged (lru : LRU) (key : String)
    (h : lru.lookup key = none) :
    lru.Get key = (none, lru) ∧ lru.Delete key = (false, lru) :=
  ⟨LRU.Get_miss h, LRU.Delete_miss h⟩

/-- Witness for C10: a key absent from a fresh engine misses without any
state change. -/
theorem c10_witness :
    (NewLRU 100 2).lookup "nosuch" = none
    ∧ (NewLRU 100 2).Get "nosuch" = (none, NewLRU 100 2)
    ∧ (NewLRU 100 2).Delete "nosuch" = (false, NewLRU 100 2) :=
  ⟨by decide,
   (c10_miss_leaves_state_unchanged (NewLRU 100 2) "nosuch" (by decide)).1,
   (c10_miss_leaves_state_unchanged (NewLRU 100 2) "nosuch" (by decide)).2⟩

/-- C5.  LRU order of eviction, over the shard instrumented with ghost
last-touch stamps: (a) the `checkCapacity` pass equals the spec-modelled
loop that repeatedly evicts the resident with the oldest last-touch time
until `size ≤ capacity` (given stamps strictly descending front-to-back,
unique keys, size accounting, and no `uint64` overflow) — the code's
removal from the back of the recency list is exactly oldest-first removal;
(b) the insert-or-update half of `Add` places the touched key at the
recency front stamped with the current clock; (c) a `Get` hit does the
same for the found entry; (d) `Add` and `Get` at a fresh clock preserve
the strictly-descending stamp order (so the invariant in (a) always
holds; unique stamps also mean ties never arise — stamp order refines
insertion order). -/
theorem c5_lru_eviction_order (b : TBucket) (k v : String)
    (f c clock : Nat) (te : TEntry)
    (hnd : b.nodupKeys) (hdesc : stampsDesc b.entries)
    (hinv : b.sizeInv) (hub : b.sumSize < U64) :
    b.checkCapacity = b.specEvict
    ∧ (b.addRaw k v f c clock).entries.head? = some ⟨⟨k, v, f, c⟩, clock⟩
    ∧ (b.findElem k = some te →
        ((b.get k clock).2).entries.head? = some ⟨te.ent, clock⟩)
    ∧ (b.freshClock clock →
        stampsDesc (b.add k v f c clock).entries
        ∧ (b.add k v f c clock).freshClock (clock + 1)
        ∧ stampsDesc ((b.get k clock).2).entries
        ∧ ((b.get k clock).2).freshClock (clock + 1)) := by
  refine ⟨tEvictLoop_eq_spec (b.entries.length + 1) b hnd hdesc hinv hub,
    tb_addRaw_head b k v f c clock, fun h => tb_get_head clock h, ?_⟩
  intro hfresh
  obtain ⟨h1, h2, h3, h4⟩ := tb_touch_invariants b k v f c clock hdesc
    hfresh
  refine ⟨?_, ?_, h3, h4⟩
  · show stampsDesc ((b.addRaw k v f c clock).evictLoop
      ((b.addRaw k v f c clock).entries.length + 1)).entries
    exact List.Pairwise.sublist (tb_evictLoop_sublist _ _) h1
  · intro x hx
    have hx' : x ∈ (b.addRaw k v f c clock).entries :=
      (tb_evictLoop_sublist ((b.addRaw k v f c clock).entries.length + 1)
        (b.addRaw k v f c clock)).subset hx
    exact h2 x hx'

/-- Witness for C5 on a concrete over-capacity shard (stamps 10 then 5,
capacity 5, size 7): the eviction pass equals oldest-first spec eviction
(the stamp-5 resident at the back goes), `addRaw`/`get` restamp the
touched key at the front, and the descending stamp order is preserved. -/
theorem c5_witness :
    ((⟨5, 7, [⟨⟨"a", "aa", 0, 1⟩, 10⟩, ⟨⟨"b", "bbb", 0, 2⟩, 5⟩]⟩ :
        TBucket).checkCapacity
      = (⟨5, 7, [⟨⟨"a", "aa", 0, 1⟩, 10⟩, ⟨⟨"b", "bbb", 0, 2⟩, 5⟩]⟩ :
        TBucket).specEvict)
    ∧ ((⟨5, 7, [⟨⟨"a", "aa", 0, 1⟩, 10⟩, ⟨⟨"b", "bbb", 0, 2⟩, 5⟩]⟩ :
        TBucket).addRaw "a" "zz" 0 3 11).entries.head?
      = some ⟨⟨"a", "zz", 0, 3⟩, 11⟩
    ∧ (((⟨5, 7, [⟨⟨"a", "aa", 0, 1⟩, 10⟩, ⟨⟨"b", "bbb", 0, 2⟩, 5⟩]⟩ :
        TBucket).get "a" 11).2).entries.head?
      = some ⟨⟨"a", "aa", 0, 1⟩, 11⟩
    ∧ stampsDesc ((⟨5, 7, [⟨⟨"a", "aa", 0, 1⟩, 10⟩,
        ⟨⟨"b", "bbb", 0, 2⟩, 5⟩]⟩ : TBucket).add "a" "zz" 0 3 11).entries :=
  ⟨(c5_lru_eviction_order _ "a" "zz" 0 3 11 ⟨⟨"a", "aa", 0, 1⟩, 10⟩
      (by decide) (by decide) (by decide) (by decide)).1,
   (c5_lru_eviction_order _ "a" "zz" 0 3 11 ⟨⟨"a", "aa", 0, 1⟩, 10⟩
      (by decide) (by decide) (by decide) (by decide)).2.1,
   (c5_lru_eviction_order _ "a" "zz" 0 3 11 ⟨⟨"a", "aa", 0, 1⟩, 10⟩
      (by decide) (by decide) (by decide) (by decide)).2.2.1 (by decide),
   ((c5_lru_eviction_order _ "a" "zz" 0 3 11 ⟨⟨"a", "aa", 0, 1⟩, 10⟩
      (by decide) (by decide) (by decide) (by decide)).2.2.2
      (by decide)).1⟩

set_option maxRecDepth 8000 in
/-- C6.  A request with a key longer than 250 bytes is *not* prevented from
executing: the `continue` in the key-length loop only advances that inner
loop, so after writing `CLIENT_ERROR` the handler still dispatches the
command.  Concretely, `set` with a 251-byte key replies
`CLIENT_ERROR … STORED` and stores the entry. -/
theorem c6_long_key_still_executes :
    (handleRequest (NewLRU 1000 1)
        (readRequest ("set " ++ String.mk (List.replicate 251 'a')
          ++ " 0 0 3") "abc")).2
      = "CLIENT_ERROR key is too long (max is 250 bytes)\r\nSTORED\r\n"
    ∧ ((handleRequest (NewLRU 1000 1)
        (readRequest ("set " ++ String.mk (List.replicate 251 'a')
          ++ " 0 0 3") "abc")).1.Get
        (String.mk (List.replicate 251 'a'))).1
      = some ("abc", 0, 1) := by
  decide

/-- C8 counterexample.  A `set` whose data line exceeds the declared length
is answered with `CLIENT_ERROR data block provided is too long\r\n` — not
with `NOT_STORED\r\n` as the claim states, and the error text is not
`data block too long`. -/
theorem c8_counterexample_reply_is_client_error :
    (handleRequest (NewLRU 100 1) (readRequest "set k1 0 0 3" "abcd")).2
      = "CLIENT_ERROR data block provided is too long\r\n"
    ∧ (handleRequest (NewLRU 100 1) (readRequest "set k1 0 0 3" "abcd")).2
      ≠ replyNotStored
    ∧ (readRequest "set k1 0 0 3" "abcd").err
      = some "data block provided is too long" := by
  decide

/-- C8 (amended).  For a well-parsed `set` line with declared length `n`:
a data line longer than `n` bytes makes the reader emit a fresh request
carrying the error `data block provided is too long`, nothing is stored
and the handler's failure reply is
`CLIENT_ERROR data block provided is too long\r\n` (not `NOT_STORED\r\n`);
a data line of at most `n` bytes is accepted as the payload, and the `set`
then replies `STORED\r\n`. -/
theorem c8_data_block_length (lru : LRU) (line data : String)
    (hok : (parseRequest line).2 = none)
    (hcmd : (parseRequest line).1.cmd = cmdSet) :
    ((glen data : Int) > (parseRequest line).1.n →
      readRequest line data = { err := some "data block provided is too long" }
      ∧ handleRequest lru (readRequest line data)
        = (lru, "CLIENT_ERROR data block provided is too long" ++ endOfLine))
    ∧ (¬(glen data : Int) > (parseRequest line).1.n →
      readRequest line data = { (parseRequest line).1 with dataBlock := data }
      ∧ ((parseRequest line).1.err = none →
        (∀ k ∈ (parseRequest line).1.keys, glen k ≤ maxKeyLength) →
        (handleRequest lru (readRequest line data)).2 = replyStored)) := by
  have hsplit : readRequest line data
      = match (parseRequest line).2 with
        | some e => { (parseRequest line).1 with err := some e }
        | none =>
          if (parseRequest line).1.cmd = cmdSet
              ∨ (parseRequest line).1.cmd = cmdCas then
            if (glen data : Int) > (parseRequest line).1.n then
              { err := some "data block provided is too long" }
            else { (parseRequest line).1 with dataBlock := data }
          else (parseRequest line).1 := rfl
  rw [hok] at hsplit
  constructor
  · intro hlong
    have hrr : readRequest line data
        = { err := some "data block provided is too long" } := by
      rw [hsplit, if_pos (Or.inl hcmd), if_pos hlong]
    exact ⟨hrr, by rw [hrr]; rfl⟩
  · intro hshort
    have hrr : readRequest line data
        = { (parseRequest line).1 with dataBlock := data } := by
      rw [hsplit, if_pos (Or.inl hcmd), if_neg hshort]
    refine ⟨hrr, ?_⟩
    intro herr hkeys
    have hklo : String.join ((parseRequest line).1.keys.map (fun k =>
        if glen k > maxKeyLength then
          "CLIENT_ERROR key is too long (max is 250 bytes)" ++ endOfLine
        else "")) = "" := by
      apply join_all_empty
      intro s hs
      obtain ⟨k, hk, hks⟩ := List.mem_map.mp hs
      rw [← hks, if_neg (by have := hkeys k hk; omega)]
    rw [hrr]
    show (handleRequest lru
      { (parseRequest line).1 with dataBlock := data }).2 = replyStored
    simp only [handleRequest, herr, hcmd]
    rw [if_neg (by decide : ¬cmdSet = cmdQuit)]
    simp only [dispatch, hcmd]
    rw [if_neg (by decide : ¬cmdSet = cmdCas),
      if_neg (by decide : ¬cmdSet = cmdDelete),
      if_neg (by decide : ¬cmdSet = cmdGet),
      if_neg (by decide : ¬cmdSet = cmdGets),
      if_pos trivial]
    show String.join _ ++ replyStored = replyStored
    rw [hklo]
    simp

/-- Witness for C8: `set k1 0 0 5` accepts the 3-byte payload `abc` and
replies `STORED\r\n`; the 6-byte payload `abcdef` is rejected with the
`CLIENT_ERROR` reply. -/
theorem c8_witness :
    (handleRequest (NewLRU 100 1) (readRequest "set k1 0 0 5" "abc")).2
      = replyStored
    ∧ handleRequest (NewLRU 100 1) (readRequest "set k1 0 0 5" "abcdef")
      = (NewLRU 100 1,
          "CLIENT_ERROR data block provided is too long" ++ endOfLine) :=
  ⟨((c8_data_block_length (NewLRU 100 1) "set k1 0 0 5" "abc"
      (by decide) (by decide)).2 (by decide)).2 (by decide) (by decide),
   ((c8_data_block_length (NewLRU 100 1) "set k1 0 0 5" "abcdef"
      (by decide) (by decide)).1 (by decide)).2⟩

/-- C9 counterexample.  A `get` line with no key token does *not* yield an
`insufficient args` error: the parser returns an error-free request with an
empty key list, and the handler answers it with plain `END\r\n`. -/
theorem c9_counterexample_get_without_key_parses :
    (parseRequest "get").2 = none
    ∧ (parseRequest "get").1.keys = []
    ∧ (handleRequest (NewLRU 100 1) (readRequest "get" "")).2 = "END\r\n"
    := by
  decide

end Memcached
